import Mathlib

/-!
Verification development for the CodestralCompanion core: the AI-response
parser and change model (src-tauri/src/differ.rs), the change applier
(src-tauri/src/agent.rs, src-tauri/src/tui/runner.rs) and the codebase
indexer (src-tauri/src/indexer.rs).

Strings are modelled as lists of characters (`Str`).  Rust byte indices
become character indices (the inputs of interest are ASCII, where the two
coincide).  A Rust slice expression `&s[a..b]` panics when `a > b` or
`b > s.len()`; this is modelled by `rsSlice` returning `none`, and a
function that can panic returns an `Option`.  Filesystem reads are modelled
by an environment `env : Str → Option Str` from paths to contents, and
`base_path.join(p).to_string_lossy()` by an abstract `joinBase : Str → Str`.
-/

abbrev Str := List Char

/-- Rust slice `&s[a..b]`: `none` models the panic on a reversed or
out-of-range range. -/
def rsSlice (s : Str) (a b : Nat) : Option Str :=
  if a ≤ b ∧ b ≤ s.length then some ((s.drop a).take (b - a)) else none

/-- Rust `str::find(pat)`: index of the first occurrence of `pat`. -/
def findSub? (pat : Str) : Str → Option Nat
  | [] => if pat.isPrefixOf ([] : Str) then some 0 else none
  | c :: rest =>
    if pat.isPrefixOf (c :: rest) then some 0
    else (findSub? pat rest).map (· + 1)

/-- Rust `str::trim`: drop whitespace from both ends. -/
def rustTrim (s : Str) : Str :=
  ((s.dropWhile Char.isWhitespace).reverse.dropWhile Char.isWhitespace).reverse

/-- Rust `str::lines`: split on newline, dropping a trailing empty segment
and one trailing carriage return per line. -/
def rustLines (s : Str) : List Str :=
  let segs := s.splitOn '\n'
  let segs' := if segs.getLast? = some [] then segs.dropLast else segs
  segs'.map fun line => if line.getLast? = some '\r' then line.dropLast else line

/-- Fuel-driven worker for `replaceAll`; with `fuel ≥ s.length` it models
Rust `str::replace` (an empty pattern matches at every character boundary,
as `match_indices` does). -/
def replaceAllGo (rep : Str) : Str → Nat → Str → Str
  | [], _, s => rep ++ s.flatMap (fun c => c :: rep)
  | _ :: _, _, [] => []
  | _ :: _, 0, _ :: _ => []
  | p :: ps, fuel + 1, c :: rest =>
    if (p :: ps).isPrefixOf (c :: rest) then
      rep ++ replaceAllGo rep (p :: ps) fuel ((c :: rest).drop (p :: ps).length)
    else
      c :: replaceAllGo rep (p :: ps) fuel rest

/-- Rust `str::replace(pat, rep)`: replace every non-overlapping occurrence
of `pat` by `rep`, scanning left to right. -/
def replaceAll (pat rep s : Str) : Str :=
  replaceAllGo rep pat s.length s

/-- differ.rs `FileChange`. -/
structure FileChange where
  path : Str
  original : Str
  modified : Str
  description : Str
  deriving DecidableEq

/-- differ.rs `NewFile`. -/
structure NewFile where
  path : Str
  content : Str
  description : Str
  deriving DecidableEq

/-- differ.rs `ChangeSet`. -/
structure ChangeSet where
  plan : List Str
  modifications : List FileChange
  new_files : List NewFile
  deletions : List Str
  deriving DecidableEq

/-- differ.rs `ChangeSet::is_empty`. -/
def ChangeSet.is_empty (cs : ChangeSet) : Bool :=
  cs.modifications.isEmpty && cs.new_files.isEmpty && cs.deletions.isEmpty

/-- differ.rs `ChangeSet::summary`: the fixed format string
`"{} modifications, {} nouveaux fichiers, {} suppressions"`. -/
def ChangeSet.summary (cs : ChangeSet) : Str :=
  (Nat.repr cs.modifications.length).toList ++ " modifications, ".toList ++
  (Nat.repr cs.new_files.length).toList ++ " nouveaux fichiers, ".toList ++
  (Nat.repr cs.deletions.length).toList ++ " suppressions".toList

def planOpenTag : Str := "<plan>".toList

def planCloseTag : Str := "</plan>".toList

def origMarker : Str := "<<<<<<< ORIGINAL".toList

def sepMarker : Str := "=======".toList

def modMarker : Str := ">>>>>>> MODIFIED".toList

def fileCloseTag : Str := "</file>".toList

def newFileCloseTag : Str := "</new_file>".toList

/-- Plan-line post-processing of differ.rs:172-182: per non-blank trimmed
line, strip leading digits, dots, dashes and spaces; keep it if non-empty. -/
def parsePlanLines (content : Str) : List Str :=
  (rustLines content).filterMap fun line =>
    let trimmed := rustTrim line
    if trimmed.isEmpty then none
    else
      let cleaned := trimmed.dropWhile fun c => c.isDigit || c == '.' || c == '-' || c == ' '
      if cleaned.isEmpty then none else some cleaned

/-- Plan extraction of differ.rs:169-184.  `none` models the panic of
`&response[plan_start + 6..plan_end]` when the first `</plan>` ends before
`plan_start + 6`. -/
def parsePlan (response : Str) : Option (List Str) :=
  match findSub? planOpenTag response with
  | none => some []
  | some planStart =>
    match findSub? planCloseTag response with
    | none => some []
    | some planEnd =>
      match rsSlice response (planStart + 6) planEnd with
      | none => none
      | some content => some (parsePlanLines content)

/-- One attempt of the regex `<tag\s+path="([^"]+)">` anchored at the start
of `s`; returns the captured path and the match length. -/
def matchTagAt (tagName : Str) (s : Str) : Option (Str × Nat) :=
  if ('<' :: tagName).isPrefixOf s then
    let rest1 := s.drop (tagName.length + 1)
    let ws := rest1.takeWhile Char.isWhitespace
    if ws.isEmpty then none
    else
      let rest2 := rest1.drop ws.length
      if "path=\"".toList.isPrefixOf rest2 then
        let rest3 := rest2.drop 6
        let cap := rest3.takeWhile (· != '"')
        if cap.isEmpty then none
        else
          let rest4 := rest3.drop cap.length
          if "\">".toList.isPrefixOf rest4 then
            some (cap, tagName.length + 1 + ws.length + 6 + cap.length + 2)
          else none
      else none
  else none

/-- Fuel-driven scan modelling `Regex::captures_iter` for the pattern
`<tag\s+path="([^"]+)">`: leftmost matches, resuming after each match.
Yields (captured path, index just after the match). -/
def scanTagsGo (tagName : Str) : Nat → Str → Nat → List (Str × Nat)
  | 0, _, _ => []
  | _ + 1, [], _ => []
  | fuel + 1, c :: rest, pos =>
    match matchTagAt tagName (c :: rest) with
    | some (cap, len) =>
      (cap, pos + len) :: scanTagsGo tagName fuel ((c :: rest).drop len) (pos + len)
    | none => scanTagsGo tagName fuel rest (pos + 1)

def scanTags (tagName : Str) (s : Str) : List (Str × Nat) :=
  scanTagsGo tagName s.length s 0

/-- Marker processing for one `<file>` block, differ.rs:198-220.  The outer
`none` models the panics of `&content[orig_start + 16..sep]` and
`&content[sep + 7..mod_end]` when a later marker occurs first; the inner
`none` is a silently dropped block. -/
def processFileBlock (env : Str → Option Str) (joinBase : Str → Str)
    (path : Str) (content : Str) : Option (Option FileChange) :=
  match findSub? origMarker content with
  | none => some none
  | some origStart =>
    match findSub? sepMarker content with
    | none => some none
    | some sep =>
      match findSub? modMarker content with
      | none => some none
      | some modEnd =>
        match rsSlice content (origStart + 16) sep with
        | none => none
        | some origRaw =>
          match rsSlice content (sep + 7) modEnd with
          | none => none
          | some modRaw =>
            let original := rustTrim origRaw
            let modified := rustTrim modRaw
            let fullPath := joinBase path
            let currentContent := (env fullPath).getD []
            let newContent := replaceAll original modified currentContent
            if newContent ≠ currentContent then
              some (some { path := fullPath, original := currentContent,
                           modified := newContent, description := [] })
            else some none

/-- The `<file>` loop of differ.rs:188-222 over the captured tags: a block
with no closing `</file>` is skipped; a `some none` block records nothing. -/
def collectMods (env : Str → Option Str) (joinBase : Str → Str) (response : Str) :
    List (Str × Nat) → Option (List FileChange)
  | [] => some []
  | (path, tagEnd) :: rest =>
    match findSub? fileCloseTag (response.drop tagEnd) with
    | none => collectMods env joinBase response rest
    | some j =>
      match processFileBlock env joinBase path ((response.drop tagEnd).take j) with
      | none => none
      | some none => collectMods env joinBase response rest
      | some (some fc) => (collectMods env joinBase response rest).map (fc :: ·)

/-- The `<new_file>` loop of differ.rs:226-240. -/
def collectNewFiles (joinBase : Str → Str) (response : Str) :
    List (Str × Nat) → List NewFile
  | [] => []
  | (path, tagEnd) :: rest =>
    match findSub? newFileCloseTag (response.drop tagEnd) with
    | none => collectNewFiles joinBase response rest
    | some j =>
      { path := joinBase path,
        content := rustTrim ((response.drop tagEnd).take j),
        description := [] } :: collectNewFiles joinBase response rest

/-- differ.rs `parse_ai_response(response, base_path)`.  `env` models the
filesystem (`fs::read_to_string`), `joinBase` models
`base_path.join(·).to_string_lossy()`.  A `none` result models a panic. -/
def parse_ai_response (env : Str → Option Str) (joinBase : Str → Str)
    (response : Str) : Option ChangeSet :=
  match parsePlan response with
  | none => none
  | some plan =>
    match collectMods env joinBase response (scanTags "file".toList response) with
    | none => none
    | some mods =>
      some { plan := plan, modifications := mods,
             new_files := collectNewFiles joinBase response
               (scanTags "new_file".toList response),
             deletions := [] }

set_option maxRecDepth 200000

/-! ### Concrete scenario inputs -/

/-- Scenario-B response of the spec (differ.rs expected format). -/
def respB : Str :=
  "<file path=\"a.rs\">\n<<<<<<< ORIGINAL\nfn main() ".toList ++ ['{', '}'] ++
  "\n=======\nfn main() ".toList ++ ['{'] ++ " println!(); ".toList ++ ['}'] ++
  "\n>>>>>>> MODIFIED\n</file>".toList

/-- Filesystem with a single file `a.rs` containing `fn main() \x7b\x7d`. -/
def envB : Str → Option Str :=
  fun p => if p = "a.rs".toList then some ("fn main() ".toList ++ ['{', '}']) else none

def fcB : FileChange :=
  { path := "a.rs".toList
    original := "fn main() ".toList ++ ['{', '}']
    modified := "fn main() ".toList ++ ['{'] ++ " println!(); ".toList ++ ['}']
    description := [] }

def csB : ChangeSet :=
  { plan := [], modifications := [fcB], new_files := [], deletions := [] }

/-- A response whose first `</plan>` precedes its first `<plan>`. -/
def panicInputPlan : Str := "</plan>x<plan>".toList

/-- A well-delimited `<file>` block whose three markers appear out of
order: `=======` and `>>>>>>> MODIFIED` before `<<<<<<< ORIGINAL`. -/
def panicInputMarkers : Str :=
  "<file path=\"a\">\n=======\n>>>>>>> MODIFIED\n<<<<<<< ORIGINAL\n</file>".toList

def emptyEnv : Str → Option Str := fun _ => none

/-! ### C1 -/

/-- Claim C1 (code_bug): the claim says `parse_ai_response` never fails, in
particular when `</plan>` precedes the first `<plan>` or when `=======` /
`>>>>>>> MODIFIED` precede `<<<<<<< ORIGINAL` inside a block.  On exactly
those inputs the code's slice expressions `&response[plan_start+6..plan_end]`
and `&content[orig_start+16..sep]` get a reversed range and panic, modelled
here as the parser returning `none`. -/
theorem c1_parse_panics_on_reversed_ranges :
    parse_ai_response emptyEnv id panicInputPlan = none ∧
    parse_ai_response emptyEnv id panicInputMarkers = none := by
  constructor <;> decide

/-! ### C8 -/

/-- Claim C8: `is_empty` holds iff modifications, new_files and deletions
are all empty, and the plan field has no influence on it. -/
theorem c8_is_empty_iff (cs : ChangeSet) :
    (cs.is_empty = true ↔
      cs.modifications = [] ∧ cs.new_files = [] ∧ cs.deletions = []) ∧
    ∀ pl : List Str, ChangeSet.is_empty { cs with plan := pl } = cs.is_empty := by
  refine ⟨?_, fun pl => rfl⟩
  simp [ChangeSet.is_empty, List.isEmpty_iff, Bool.and_eq_true, and_assoc]

/-! ### C9 -/

def literalSummaryC : Str :=
  "2 modifications, 1 nouveaux fichiers, 0 suppressions".toList

/-- Claim C9: `summary` renders the three sequence lengths in the fixed
format string, with no pluralization adjustment: any ChangeSet with
2 modifications, 1 new file and 0 deletions renders the exact literal
`2 modifications, 1 nouveaux fichiers, 0 suppressions`. -/
theorem c9_summary_fixed_format :
    (∀ cs : ChangeSet, cs.summary =
      (Nat.repr cs.modifications.length).toList ++ " modifications, ".toList ++
      (Nat.repr cs.new_files.length).toList ++ " nouveaux fichiers, ".toList ++
      (Nat.repr cs.deletions.length).toList ++ " suppressions".toList) ∧
    ∀ cs : ChangeSet, cs.modifications.length = 2 → cs.new_files.length = 1 →
      cs.deletions.length = 0 → cs.summary = literalSummaryC := by
  refine ⟨fun cs => rfl, fun cs h1 h2 h3 => ?_⟩
  simp only [ChangeSet.summary, h1, h2, h3]
  decide

def fcDummy : FileChange := { path := [], original := [], modified := ['x'], description := [] }

def nfDummy : NewFile := { path := ['p'], content := [], description := [] }

def cs9 : ChangeSet :=
  { plan := [], modifications := [fcDummy, fcDummy], new_files := [nfDummy], deletions := [] }

theorem c9_summary_fixed_format_witness : cs9.summary = literalSummaryC :=
  c9_summary_fixed_format.2 cs9 (by decide) (by decide) (by decide)

/-! ### C10 -/

lemma replaceAll_nil_pat (rep s : Str) :
    replaceAll [] rep s = rep ++ s.flatMap (fun c => c :: rep) := by
  simp [replaceAll, replaceAllGo]

lemma length_flatMap_cons_rep (rep : Str) :
    ∀ s : Str, (s.flatMap (fun c => c :: rep)).length = s.length * (1 + rep.length) := by
  intro s
  induction s with
  | nil => simp
  | cons c t ih =>
    simp only [List.flatMap_cons, List.length_append, List.length_cons, ih]
    ring

lemma length_insert_everywhere (rep s : Str) :
    (rep ++ s.flatMap (fun c => c :: rep)).length =
      rep.length + s.length * (1 + rep.length) := by
  rw [List.length_append, length_flatMap_cons_rep]

def respC10 : Str :=
  "<file path=\"a.rs\">\n<<<<<<< ORIGINAL\n\n=======\nX\n>>>>>>> MODIFIED\n</file>".toList

def envC10 : Str → Option Str :=
  fun p => if p = "a.rs".toList then some ("ab".toList) else none

def fcC10 : FileChange :=
  { path := "a.rs".toList, original := "ab".toList,
    modified := "XaXbX".toList, description := [] }

def csC10 : ChangeSet :=
  { plan := [], modifications := [fcC10], new_files := [], deletions := [] }

/-- Claim C10: a block whose ORIGINAL fragment trims to empty makes the
code call `String::replace` with an empty pattern, which inserts the
MODIFIED fragment at every character boundary; the result always differs
from the current content (for non-empty MODIFIED), so a FileChange with the
mangled text is recorded — concretely, on-disk `ab` with MODIFIED `X`
records modified text `XaXbX`. -/
theorem c10_empty_original_inserts_everywhere :
    (∀ rep s : Str, rep ≠ [] →
      replaceAll [] rep s = rep ++ s.flatMap (fun c => c :: rep) ∧
      replaceAll [] rep s ≠ s) ∧
    parse_ai_response envC10 id respC10 = some csC10 := by
  refine ⟨fun rep s hrep => ⟨replaceAll_nil_pat rep s, fun h => ?_⟩, by decide⟩
  have h1 : (rep ++ s.flatMap (fun c => c :: rep)).length = s.length := by
    have h2 := congrArg List.length h
    rwa [replaceAll_nil_pat rep s] at h2
  rw [length_insert_everywhere] at h1
  have h3 : 0 < rep.length := List.length_pos.mpr hrep
  have h4 : s.length * (1 + rep.length) = s.length + s.length * rep.length := by
    rw [Nat.mul_add, Nat.mul_one]
  rw [h4] at h1
  generalize s.length * rep.length = k at h1
  omega
theorem c10_empty_original_witness :
    replaceAll [] ['X'] ("ab".toList) = ['X'] ++ ("ab".toList).flatMap (fun c => c :: ['X']) ∧
    replaceAll [] ['X'] ("ab".toList) ≠ "ab".toList :=
  c10_empty_original_inserts_everywhere.1 ['X'] ("ab".toList) (by decide)

/-! ### C3 -/

lemma processFileBlock_modified_ne (env : Str → Option Str) (jb : Str → Str)
    (path content : Str) (fc : FileChange)
    (h : processFileBlock env jb path content = some (some fc)) :
    fc.modified ≠ fc.original := by
  unfold processFileBlock at h
  repeat' split at h
  all_goals try simp_all
  split at h
  · simp_all
  · rename_i hne
    simp only [Option.some.injEq] at h
    cases h
    simpa using hne

lemma collectMods_modified_ne (env : Str → Option Str) (jb : Str → Str)
    (response : Str) :
    ∀ tags l, collectMods env jb response tags = some l →
      ∀ fc ∈ l, fc.modified ≠ fc.original := by
  intro tags
  induction tags with
  | nil =>
    intro l h fc hm
    simp only [collectMods, Option.some.injEq] at h
    subst h
    simp at hm
  | cons t rest ih =>
    intro l h fc hm
    obtain ⟨path, tagEnd⟩ := t
    unfold collectMods at h
    split at h
    · exact ih _ h fc hm
    · split at h
      · exact absurd h (by simp)
      · exact ih _ h fc hm
      · rename_i fc' hblock
        rw [Option.map_eq_some'] at h
        obtain ⟨l', hl', rfl⟩ := h
        rcases List.mem_cons.mp hm with rfl | hmem
        · exact processFileBlock_modified_ne env jb path _ fc hblock
        · exact ih _ hl' fc hmem

/-- Claim C3: every FileChange recorded by `parse_ai_response` satisfies
`modified_full_text ≠ original_full_text`: a block whose global replacement
leaves the current content unchanged produces no entry. -/
theorem c3_no_noop_modification_recorded (env : Str → Option Str)
    (jb : Str → Str) (response : Str) (cs : ChangeSet)
    (h : parse_ai_response env jb response = some cs) :
    ∀ fc ∈ cs.modifications, fc.modified ≠ fc.original := by
  unfold parse_ai_response at h
  split at h
  · exact absurd h (by simp)
  · split at h
    · exact absurd h (by simp)
    · rename_i mods hmods
      intro fc hm
      refine collectMods_modified_ne env jb response _ mods hmods fc ?_
      cases h.symm
      exact hm

theorem c3_no_noop_modification_recorded_witness :
    parse_ai_response envB id respB = some csB ∧ fcB.modified ≠ fcB.original :=
  ⟨by decide, c3_no_noop_modification_recorded envB id respB csB (by decide) fcB (by decide)⟩

/-! ### Indexer model (indexer.rs) -/

/-- indexer.rs `IndexedFile`. -/
structure IndexedFile where
  path : Str
  relative_path : Str
  content : Str
  extension : Str
  size : Nat
  deriving DecidableEq

/-- The per-file banner of build_context (indexer.rs:184):
`"\n--- {relative_path} ---\n"`. -/
def fileHeader (f : IndexedFile) : Str :=
  "\n--- ".toList ++ f.relative_path ++ " ---\n".toList

/-- The per-file token estimate of build_context (indexer.rs:185):
`(file_header.len() + file.content.len()) / 4`. -/
def fileTokens (f : IndexedFile) : Nat :=
  ((fileHeader f).length + f.content.length) / 4

/-- What build_context appends to the current chunk for one file
(indexer.rs:193-194): header then content. -/
def renderFile (f : IndexedFile) : Str :=
  fileHeader f ++ f.content

/-- The accumulation of `total_tokens_estimate` in `CodebaseIndex::index`
(indexer.rs:133-135): `+= content.len() / 4` for each included file, in
index order. -/
def indexTotalTokens (files : List IndexedFile) : Nat :=
  files.foldl (fun acc f => acc + f.content.length / 4) 0

/-- indexer.rs `CodebaseIndex::build_context` (lines 178-203); the fold
state is (chunks, current_chunk, current_tokens). -/
def buildContextGo (maxTokens : Nat) :
    List IndexedFile → List Str → Str → Nat → List Str
  | [], chunks, cur, _ => if cur = [] then chunks else chunks ++ [cur]
  | f :: rest, chunks, cur, curTok =>
    let ft := fileTokens f
    if curTok + ft > maxTokens ∧ cur ≠ [] then
      buildContextGo maxTokens rest (chunks ++ [cur]) (renderFile f) ft
    else
      buildContextGo maxTokens rest chunks (cur ++ renderFile f) (curTok + ft)

def build_context (files : List IndexedFile) (maxTokens : Nat) : List Str :=
  buildContextGo maxTokens files [] [] 0

/-- The estimated token count of a chunk of files: the sum of the per-file
estimates that build_context accumulates in `current_tokens`. -/
def chunkEstimate (g : List IndexedFile) : Nat := (g.map fileTokens).sum

/-- The grouping of files into chunks induced by build_context: same fold,
carrying the files of each chunk instead of the rendered text. -/
def buildGroupsGo (maxTokens : Nat) :
    List IndexedFile → List (List IndexedFile) → List IndexedFile → List (List IndexedFile)
  | [], gs, cur => if cur = [] then gs else gs ++ [cur]
  | f :: rest, gs, cur =>
    if chunkEstimate cur + fileTokens f > maxTokens ∧ cur ≠ [] then
      buildGroupsGo maxTokens rest (gs ++ [cur]) [f]
    else
      buildGroupsGo maxTokens rest gs (cur ++ [f])

def buildGroups (files : List IndexedFile) (maxTokens : Nat) : List (List IndexedFile) :=
  buildGroupsGo maxTokens files [] []

def renderChunk (g : List IndexedFile) : Str := (g.map renderFile).flatten

/-! ### C5 -/

lemma fileHeader_length (f : IndexedFile) :
    (fileHeader f).length = 10 + f.relative_path.length := by
  have h5 : ("\n--- ".toList).length = 5 := rfl
  have h5' : (" ---\n".toList).length = 5 := rfl
  simp only [fileHeader, List.length_append, h5, h5']
  omega

lemma indexTotalTokens_eq_sum :
    ∀ (files : List IndexedFile) (n : Nat),
      files.foldl (fun acc f => acc + f.content.length / 4) n =
        n + (files.map (fun f => f.content.length / 4)).sum := by
  intro files
  induction files with
  | nil => intro n; simp
  | cons f t ih =>
    intro n
    simp only [List.foldl_cons, List.map_cons, List.sum_cons, ih]
    omega

def idxF1 : IndexedFile :=
  { path := "a.rs".toList, relative_path := "a.rs".toList,
    content := "abcd".toList, extension := "rs".toList, size := 4 }

def idxF2 : IndexedFile :=
  { path := "b.rs".toList, relative_path := "b.rs".toList,
    content := "efgh".toList, extension := "rs".toList, size := 4 }

def files5 : List IndexedFile := [idxF1]

/-- Claim C5 counterexample: for the one-file index containing `a.rs` with
four-character content, the stored total (content/4 = 1) differs from
build_context's accounting ((header+content)/4 = 18/4 = 4). -/
theorem c5_total_tokens_counterexample :
    indexTotalTokens files5 ≠ (files5.map fileTokens).sum := by decide

/-- Claim C5 amended: `total_tokens_estimate` equals the sum over included
files of `content_length / 4` (the header is not counted, indexer.rs:134),
and is strictly smaller than build_context's per-file accounting
`(header_length + content_length) / 4` whenever at least one file is
indexed. -/
theorem c5_total_tokens_amended (files : List IndexedFile) :
    indexTotalTokens files = (files.map (fun f => f.content.length / 4)).sum ∧
    (files ≠ [] → indexTotalTokens files < (files.map fileTokens).sum) := by
  have hsum : ∀ fl : List IndexedFile,
      indexTotalTokens fl = (fl.map (fun f => f.content.length / 4)).sum :=
    fun fl => by simpa using indexTotalTokens_eq_sum fl 0
  constructor
  · exact hsum files
  · intro hne
    obtain ⟨f, t, rfl⟩ : ∃ f t, files = f :: t := by
      cases files with
      | nil => exact absurd rfl hne
      | cons f t => exact ⟨f, t, rfl⟩
    have hhead : f.content.length / 4 < fileTokens f := by
      have hmono : (f.content.length + 8) / 4 ≤ fileTokens f := by
        apply Nat.div_le_div_right
        rw [fileHeader_length]
        omega
      omega
    have htail : (t.map (fun f => f.content.length / 4)).sum ≤ (t.map fileTokens).sum := by
      apply List.sum_le_sum
      intro g _
      apply Nat.div_le_div_right
      rw [fileHeader_length]
      omega
    rw [hsum (f :: t)]
    simp only [List.map_cons, List.sum_cons]
    omega

theorem c5_total_tokens_amended_witness :
    indexTotalTokens files5 = (files5.map (fun f => f.content.length / 4)).sum ∧
    indexTotalTokens files5 < (files5.map fileTokens).sum :=
  ⟨(c5_total_tokens_amended files5).1, (c5_total_tokens_amended files5).2 (by decide)⟩

/-! ### C6 -/

lemma renderFile_ne_nil (f : IndexedFile) : renderFile f ≠ [] := by
  simp [renderFile, fileHeader]

lemma renderChunk_eq_nil_iff (g : List IndexedFile) : renderChunk g = [] ↔ g = [] := by
  cases g with
  | nil => simp [renderChunk]
  | cons f t =>
    simp only [renderChunk, List.map_cons, List.flatten_cons, List.append_eq_nil]
    simp [renderFile, fileHeader]

lemma renderChunk_singleton (f : IndexedFile) : renderChunk [f] = renderFile f := by
  simp [renderChunk]

lemma renderChunk_append_one (g : List IndexedFile) (f : IndexedFile) :
    renderChunk (g ++ [f]) = renderChunk g ++ renderFile f := by
  simp [renderChunk]

lemma chunkEstimate_nil : chunkEstimate [] = 0 := rfl

lemma chunkEstimate_singleton (f : IndexedFile) : chunkEstimate [f] = fileTokens f := by
  simp [chunkEstimate]

lemma chunkEstimate_append_one (g : List IndexedFile) (f : IndexedFile) :
    chunkEstimate (g ++ [f]) = chunkEstimate g + fileTokens f := by
  simp [chunkEstimate]

lemma buildContextGo_corr (maxT : Nat) :
    ∀ (files : List IndexedFile) (gs : List (List IndexedFile)) (cur : List IndexedFile),
      buildContextGo maxT files (gs.map renderChunk) (renderChunk cur) (chunkEstimate cur) =
        (buildGroupsGo maxT files gs cur).map renderChunk := by
  intro files
  induction files with
  | nil =>
    intro gs cur
    simp only [buildContextGo, buildGroupsGo, ne_eq, renderChunk_eq_nil_iff]
    by_cases hc : cur = []
    · simp [hc, renderChunk]
    · simp [hc]
  | cons f rest ih =>
    intro gs cur
    simp only [buildContextGo, buildGroupsGo, ne_eq, renderChunk_eq_nil_iff]
    by_cases hcond : chunkEstimate cur + fileTokens f > maxT ∧ ¬cur = []
    · rw [if_pos hcond, if_pos hcond]
      have := ih (gs ++ [cur]) [f]
      rw [List.map_append] at this
      simpa [renderChunk_singleton, chunkEstimate_singleton] using this
    · rw [if_neg hcond, if_neg hcond]
      have := ih gs (cur ++ [f])
      rw [renderChunk_append_one, chunkEstimate_append_one] at this
      exact this

lemma buildGroupsGo_flatten (maxT : Nat) :
    ∀ (files : List IndexedFile) (gs : List (List IndexedFile)) (cur : List IndexedFile),
      (buildGroupsGo maxT files gs cur).flatten = gs.flatten ++ cur ++ files := by
  intro files
  induction files with
  | nil =>
    intro gs cur
    simp only [buildGroupsGo]
    by_cases hc : cur = []
    · simp [hc]
    · simp [hc]
  | cons f rest ih =>
    intro gs cur
    simp only [buildGroupsGo]
    by_cases hcond : chunkEstimate cur + fileTokens f > maxT ∧ ¬cur = []
    · rw [if_pos hcond, ih]
      simp
    · rw [if_neg hcond, ih]
      simp

lemma buildGroupsGo_bound (maxT : Nat) :
    ∀ (files : List IndexedFile) (gs : List (List IndexedFile)) (cur : List IndexedFile),
      (∀ g ∈ gs, 2 ≤ g.length → chunkEstimate g ≤ maxT) →
      (2 ≤ cur.length → chunkEstimate cur ≤ maxT) →
      ∀ g ∈ buildGroupsGo maxT files gs cur, 2 ≤ g.length → chunkEstimate g ≤ maxT := by
  intro files
  induction files with
  | nil =>
    intro gs cur hgs hcur g hg
    simp only [buildGroupsGo] at hg
    by_cases hc : cur = []
    · rw [if_pos hc] at hg
      exact hgs g hg
    · rw [if_neg hc] at hg
      rcases List.mem_append.mp hg with h | h
      · exact hgs g h
      · rw [List.mem_singleton] at h
        subst h
        exact hcur
  | cons f rest ih =>
    intro gs cur hgs hcur g hg
    simp only [buildGroupsGo] at hg
    by_cases hcond : chunkEstimate cur + fileTokens f > maxT ∧ ¬cur = []
    · rw [if_pos hcond] at hg
      refine ih (gs ++ [cur]) [f] ?_ ?_ g hg
      · intro g' hg'
        rcases List.mem_append.mp hg' with h | h
        · exact hgs g' h
        · rw [List.mem_singleton] at h
          subst h
          exact hcur
      · intro h2
        simp at h2
    · rw [if_neg hcond] at hg
      refine ih gs (cur ++ [f]) hgs ?_ g hg
      intro hlen
      rw [chunkEstimate_append_one]
      rcases not_and_or.mp hcond with h | h
      · omega
      · rw [not_not] at h
        subst h
        simp at hlen

/-- Claim C6: build_context's chunks are exactly the rendered groups of
`buildGroups`; concatenating the groups reproduces every indexed file
exactly once, in index order (so a single oversized file is still placed
whole into some chunk, never split); and every chunk holding more than one
file has an estimated token count within `max_tokens`. -/
theorem c6_build_context_chunking (files : List IndexedFile) (maxTokens : Nat) :
    build_context files maxTokens = (buildGroups files maxTokens).map renderChunk ∧
    (buildGroups files maxTokens).flatten = files ∧
    ∀ g ∈ buildGroups files maxTokens, 2 ≤ g.length → chunkEstimate g ≤ maxTokens := by
  refine ⟨?_, ?_, ?_⟩
  · have h := buildContextGo_corr maxTokens files [] []
    simpa [build_context, buildGroups, renderChunk, chunkEstimate] using h
  · simpa using buildGroupsGo_flatten maxTokens files [] []
  · refine buildGroupsGo_bound maxTokens files [] [] ?_ ?_
    · intro g hg
      simp at hg
    · intro h2
      simp at h2

theorem c6_build_context_chunking_witness :
    (buildGroups [idxF1, idxF2] 100).flatten = [idxF1, idxF2] ∧
    chunkEstimate [idxF1, idxF2] ≤ 100 :=
  ⟨(c6_build_context_chunking [idxF1, idxF2] 100).2.1,
   (c6_build_context_chunking [idxF1, idxF2] 100).2.2 [idxF1, idxF2] (by decide) (by decide)⟩

/-! ### Change application model (agent.rs, tui/runner.rs) -/

/-- Oracle for the filesystem mutations used by apply(): `write` models
`fs::write(path, content)` and `create_dir_all` models
`fs::create_dir_all` on the target's parent; `none` is success, `some e`
the OS error text. -/
structure FsOracle where
  write : Str → Str → Option Str
  create_dir_all : Str → Option Str

/-- One filesystem mutation attempted by an apply() call. -/
inductive FsEvent
  | write (path content : Str)
  | mkdirs (path : Str)
  deriving DecidableEq

/-- differ.rs `FileChange::apply` (lines 42-45): one `fs::write` of the
modified text, failure tagged with the path.  Returns the attempted
mutations plus the outcome. -/
def FileChange.applyFs (fs : FsOracle) (c : FileChange) :
    List FsEvent × Except Str Unit :=
  ([FsEvent.write c.path c.modified],
   match fs.write c.path c.modified with
   | none => Except.ok ()
   | some e =>
     Except.error ("Failed to write ".toList ++ c.path ++ ": ".toList ++ e))

/-- differ.rs `NewFile::apply` (lines 78-86): create the parent
directories, then `fs::write` the content. -/
def NewFile.applyFs (fs : FsOracle) (nf : NewFile) :
    List FsEvent × Except Str Unit :=
  match fs.create_dir_all nf.path with
  | some e =>
    ([FsEvent.mkdirs nf.path],
     Except.error ("Failed to create directories: ".toList ++ e))
  | none =>
    ([FsEvent.mkdirs nf.path, FsEvent.write nf.path nf.content],
     match fs.write nf.path nf.content with
     | none => Except.ok ()
     | some e =>
       Except.error ("Failed to write ".toList ++ nf.path ++ ": ".toList ++ e))

/-- A loop of `item.apply()?` calls: the first error aborts, later items
are not attempted. -/
def applySeq {α : Type} (app : α → List FsEvent × Except Str Unit) :
    List α → List FsEvent × Except Str Unit
  | [] => ([], Except.ok ())
  | x :: rest =>
    match app x with
    | (ev, Except.error e) => (ev, Except.error e)
    | (ev, Except.ok ()) =>
      let r2 := applySeq app rest
      (ev ++ r2.1, r2.2)

/-- agent.rs `Agent::apply_all_changes` (lines 154-169): all modifications
via `change.apply()?`, then all new files via `new_file.apply()?`. -/
def applyAllChanges (fs : FsOracle) (cs : ChangeSet) :
    List FsEvent × Except Str Unit :=
  match applySeq (FileChange.applyFs fs) cs.modifications with
  | (ev, Except.error e) => (ev, Except.error e)
  | (ev, Except.ok ()) =>
    let r2 := applySeq (NewFile.applyFs fs) cs.new_files
    (ev ++ r2.1, r2.2)

/-- chat.rs `ChatMode` (the TUI session modes). -/
inductive ChatMode
  | Ask
  | Plan
  | Code
  | Auto
  deriving DecidableEq

/-- tui/runner.rs lines 1400-1410: in Auto mode every modification and new
file is applied with `let _ = apply()` — failures ignored, all items
attempted; other modes apply nothing here. -/
def tuiApplyChanges (fs : FsOracle) (mode : ChatMode) (cs : ChangeSet) :
    List FsEvent :=
  if cs.is_empty = false ∧ mode ≠ ChatMode.Ask then
    if mode = ChatMode.Auto then
      (cs.modifications.map (fun c => (FileChange.applyFs fs c).1)).flatten ++
      (cs.new_files.map (fun nf => (NewFile.applyFs fs nf).1)).flatten
    else []
  else []

/-- cli.rs `ExecutionMode`. -/
inductive ExecutionMode
  | Plan
  | Interactive
  | Auto
  deriving DecidableEq

/-- agent.rs `Agent::apply_changes_interactive` (lines 171-196): each item
is gated by a yes/no oracle consumed in order; declined items are skipped;
an accepted item failing aborts via `?`.  Also returns the next oracle
index. -/
def applyConfirmSeq {α : Type} (app : α → List FsEvent × Except Str Unit)
    (conf : Nat → Bool) : Nat → List α → (List FsEvent × Except Str Unit) × Nat
  | k, [] => (([], Except.ok ()), k)
  | k, x :: rest =>
    if conf k then
      match app x with
      | (ev, Except.error e) => ((ev, Except.error e), k + 1)
      | (ev, Except.ok ()) =>
        let r2 := applyConfirmSeq app conf (k + 1) rest
        ((ev ++ r2.1.1, r2.1.2), r2.2)
    else applyConfirmSeq app conf (k + 1) rest

def applyChangesInteractive (fs : FsOracle) (conf : Nat → Bool)
    (cs : ChangeSet) : List FsEvent × Except Str Unit :=
  match applyConfirmSeq (FileChange.applyFs fs) conf 0 cs.modifications with
  | ((ev, Except.error e), _) => (ev, Except.error e)
  | ((ev, Except.ok ()), k) =>
    let r2 := applyConfirmSeq (NewFile.applyFs fs) conf k cs.new_files
    (ev ++ r2.1.1, r2.1.2)

/-- The post-parse decision logic of agent.rs `Agent::run` (lines 117-151):
Plan mode returns right after displaying the plan, before any apply; empty
ChangeSets and dry-run also return without applying; Auto applies all,
Interactive confirms each.  The dead `ExecutionMode::Plan => unreachable!()`
arm of the final match is modelled as `none` (panic). -/
def agentRunApplyPhase (fs : FsOracle) (conf : Nat → Bool)
    (mode : ExecutionMode) (dryRun : Bool) (cs : ChangeSet) :
    Option (List FsEvent × Except Str Unit) :=
  if mode = ExecutionMode.Plan then some ([], Except.ok ())
  else if cs.is_empty then some ([], Except.ok ())
  else if dryRun then some ([], Except.ok ())
  else
    match mode with
    | ExecutionMode.Auto => some (applyAllChanges fs cs)
    | ExecutionMode.Interactive => some (applyChangesInteractive fs conf cs)
    | ExecutionMode.Plan => none

/-! ### C7 -/

/-- Claim C7: under the Plan confirmation policy, for every ChangeSet —
non-empty ones included — the run performs zero filesystem writes: no
FileChange.apply or NewFile.apply is invoked (no events), and it returns
successfully after only displaying the changes. -/
theorem c7_plan_mode_never_applies (fs : FsOracle) (conf : Nat → Bool)
    (dryRun : Bool) (cs : ChangeSet) :
    agentRunApplyPhase fs conf ExecutionMode.Plan dryRun cs =
      some ([], Except.ok ()) := by
  simp [agentRunApplyPhase]

/-! ### C4 -/

def fcM1 : FileChange :=
  { path := "a.rs".toList, original := "x".toList,
    modified := "y".toList, description := [] }

def fcM2 : FileChange :=
  { path := "b.rs".toList, original := "u".toList,
    modified := "v".toList, description := [] }

def csC4 : ChangeSet :=
  { plan := [], modifications := [fcM1, fcM2], new_files := [], deletions := [] }

/-- A filesystem on which writing `a.rs` fails and everything else
succeeds. -/
def fsFailFirst : FsOracle :=
  { write := fun p _ => if p = "a.rs".toList then some ("disk full".toList) else none
    create_dir_all := fun _ => none }

/-- Claim C4 counterexample: applying a ChangeSet of two modifications in
Auto mode through `Agent::apply_all_changes`, where the first write fails,
attempts only the first item — the write of the second item never happens,
so one failing apply() does block the subsequent items. -/
theorem c4_per_item_counterexample :
    (applyAllChanges fsFailFirst csC4).1 = [FsEvent.write fcM1.path fcM1.modified] ∧
    FsEvent.write fcM2.path fcM2.modified ∉ (applyAllChanges fsFailFirst csC4).1 := by
  constructor <;> decide

lemma is_empty_false_of_mod_mem {cs : ChangeSet} {c : FileChange}
    (hc : c ∈ cs.modifications) : cs.is_empty = false := by
  unfold ChangeSet.is_empty
  obtain ⟨a, t, hE⟩ : ∃ a t, cs.modifications = a :: t := by
    cases hM : cs.modifications with
    | nil => rw [hM] at hc; simp at hc
    | cons a t => exact ⟨a, t, rfl⟩
  rw [hE]
  simp

lemma is_empty_false_of_nf_mem {cs : ChangeSet} {nf : NewFile}
    (hnf : nf ∈ cs.new_files) : cs.is_empty = false := by
  unfold ChangeSet.is_empty
  obtain ⟨a, t, hE⟩ : ∃ a t, cs.new_files = a :: t := by
    cases hM : cs.new_files with
    | nil => rw [hM] at hnf; simp at hnf
    | cons a t => exact ⟨a, t, rfl⟩
  rw [hE]
  simp

lemma mkdirs_mem_applyFs (fs : FsOracle) (nf : NewFile) :
    FsEvent.mkdirs nf.path ∈ (NewFile.applyFs fs nf).1 := by
  rcases h : fs.create_dir_all nf.path with _ | e <;>
    simp [NewFile.applyFs, h]

lemma applySeq_abort (fs : FsOracle) (c : FileChange) (e : Str) :
    ∀ (pre post : List FileChange),
      (∀ c' ∈ pre, fs.write c'.path c'.modified = none) →
      fs.write c.path c.modified = some e →
      applySeq (FileChange.applyFs fs) (pre ++ c :: post) =
        ((pre ++ [c]).map fun x => FsEvent.write x.path x.modified,
         Except.error ("Failed to write ".toList ++ c.path ++ ": ".toList ++ e)) := by
  intro pre
  induction pre with
  | nil =>
    intro post hpre hc
    simp [applySeq, FileChange.applyFs, hc]
  | cons c' pre' ih =>
    intro post hpre hc
    have hw : fs.write c'.path c'.modified = none := hpre c' (by simp)
    simp only [List.cons_append, applySeq, FileChange.applyFs, hw, List.append_eq]
    rw [ih post (fun x hx => hpre x (by simp [hx])) hc]
    simp

/-- Claim C4 amended: per-item independence holds only in the TUI Auto
loop, where every modification and new file is attempted and failures are
silently ignored; in `Agent::apply_all_changes` (CLI Auto mode) the first
failing apply() aborts the ChangeSet — earlier items are applied, the
failing item's error is returned, and later items (and all new files) are
never attempted. -/
theorem c4_apply_error_handling_amended :
    (∀ (fs : FsOracle) (cs : ChangeSet), ∀ c ∈ cs.modifications,
       FsEvent.write c.path c.modified ∈ tuiApplyChanges fs ChatMode.Auto cs) ∧
    (∀ (fs : FsOracle) (cs : ChangeSet), ∀ nf ∈ cs.new_files,
       FsEvent.mkdirs nf.path ∈ tuiApplyChanges fs ChatMode.Auto cs) ∧
    (∀ (fs : FsOracle) (pl : List Str) (pre : List FileChange) (c : FileChange)
       (post : List FileChange) (nfs : List NewFile) (dels : List Str) (e : Str),
       (∀ c' ∈ pre, fs.write c'.path c'.modified = none) →
       fs.write c.path c.modified = some e →
       applyAllChanges fs ⟨pl, pre ++ c :: post, nfs, dels⟩ =
         ((pre ++ [c]).map fun x => FsEvent.write x.path x.modified,
          Except.error ("Failed to write ".toList ++ c.path ++ ": ".toList ++ e))) := by
  refine ⟨?_, ?_, ?_⟩
  · intro fs cs c hc
    unfold tuiApplyChanges
    rw [if_pos ⟨is_empty_false_of_mod_mem hc, by intro h; cases h⟩, if_pos rfl]
    refine List.mem_append_left _ ?_
    rw [List.mem_flatten]
    refine ⟨[FsEvent.write c.path c.modified], ?_, by simp⟩
    have h1 : (FileChange.applyFs fs c).1 = [FsEvent.write c.path c.modified] := rfl
    rw [← h1]
    exact List.mem_map_of_mem _ hc
  · intro fs cs nf hnf
    unfold tuiApplyChanges
    rw [if_pos ⟨is_empty_false_of_nf_mem hnf, by intro h; cases h⟩, if_pos rfl]
    refine List.mem_append_right _ ?_
    rw [List.mem_flatten]
    exact ⟨(NewFile.applyFs fs nf).1, List.mem_map_of_mem _ hnf,
      mkdirs_mem_applyFs fs nf⟩
  · intro fs pl pre c post nfs dels e hpre hc
    unfold applyAllChanges
    have hmods : (⟨pl, pre ++ c :: post, nfs, dels⟩ : ChangeSet).modifications =
        pre ++ c :: post := rfl
    rw [hmods, applySeq_abort fs c e pre post hpre hc]

theorem c4_apply_error_handling_amended_witness :
    FsEvent.write fcM1.path fcM1.modified ∈
      tuiApplyChanges fsFailFirst ChatMode.Auto csC4 :=
  c4_apply_error_handling_amended.1 fsFailFirst csC4 fcM1 (by decide)

/-! ### C2: lemma kit for first-occurrence computations -/

/-- `pat` occurs as a contiguous substring of `s`. -/
def occursSub (pat s : Str) : Prop := ∃ i, pat <+: s.drop i

/-- No occurrence of `pat` starts inside `a` when `a` is followed by `b`. -/
def NoPre (pat a b : Str) : Prop := ∀ i < a.length, ¬ pat <+: (a.drop i ++ b)

lemma noPre_append {pat a₁ a₂ b : Str}
    (h1 : NoPre pat a₁ (a₂ ++ b)) (h2 : NoPre pat a₂ b) :
    NoPre pat (a₁ ++ a₂) b := by
  intro i hi
  rcases Nat.lt_or_ge i a₁.length with hlt | hge
  · rw [List.drop_append_of_le_length (Nat.le_of_lt hlt), List.append_assoc]
    exact h1 i hlt
  · obtain ⟨j, rfl⟩ : ∃ j, i = a₁.length + j := ⟨i - a₁.length, by omega⟩
    rw [List.drop_append]
    refine h2 j ?_
    rw [List.length_append] at hi
    omega

lemma noPre_head_notMem {hd : Char} {pr a b : Str} (h : hd ∉ a) :
    NoPre (hd :: pr) a b := by
  intro i hi hcontra
  obtain ⟨c, t, hct⟩ : ∃ c t, a.drop i = c :: t := by
    cases hD : a.drop i with
    | nil =>
      have hlen := congrArg List.length hD
      rw [List.length_drop] at hlen
      simp at hlen
      omega
    | cons c t => exact ⟨c, t, rfl⟩
  rw [hct, List.cons_append] at hcontra
  obtain ⟨rfl, -⟩ := List.cons_prefix_cons.mp hcontra
  exact h (List.mem_of_mem_drop (hct ▸ List.mem_cons_self hd t))

lemma noPre_lit {pat a : Str}
    (hchk : ∀ i < a.length, ¬ (a.drop i) <+: pat ∧ ¬ pat <+: (a.drop i)) (b : Str) :
    NoPre pat a b := by
  intro i hi hcontra
  obtain ⟨h1, h2⟩ := hchk i hi
  rcases Nat.le_total pat.length (a.drop i).length with hle | hge
  · refine h2 ?_
    have h3 : pat = List.take pat.length (a.drop i ++ b) :=
      List.prefix_iff_eq_take.mp hcontra
    rw [List.take_append_of_le_length hle] at h3
    rw [h3]
    exact List.take_prefix _ _
  · refine h1 ?_
    rw [List.prefix_iff_eq_take]
    rw [List.prefix_iff_eq_take] at hcontra
    have h3 : (a.drop i) = List.take (a.drop i).length pat := by
      conv_rhs => rw [hcontra]
      rw [List.take_take, Nat.min_eq_left hge, List.take_left]
    exact h3

lemma findSub?_eq_none {pat : Str} (hpat : pat ≠ []) :
    ∀ s : Str, NoPre pat s [] → findSub? pat s = none := by
  intro s
  induction s with
  | nil =>
    intro _
    obtain ⟨p, pr, rfl⟩ : ∃ p pr, pat = p :: pr := by
      cases pat with
      | nil => exact absurd rfl hpat
      | cons p pr => exact ⟨p, pr, rfl⟩
    simp [findSub?, List.isPrefixOf]
  | cons c rest ih =>
    intro hnp
    have h0 : ¬ pat <+: (c :: rest) := by
      have := hnp 0 (by simp)
      simpa using this
    rw [findSub?, if_neg (by rw [List.isPrefixOf_iff_prefix]; exact h0)]
    rw [ih ?_]
    · rfl
    · intro i hi
      have := hnp (i + 1) (by simpa using Nat.succ_lt_succ hi)
      simpa using this

lemma findSub?_boundary {pat : Str} :
    ∀ a b : Str, pat <+: b → NoPre pat a b → findSub? pat (a ++ b) = some a.length := by
  intro a
  induction a with
  | nil =>
    intro b hb _
    cases b with
    | nil =>
      rw [List.prefix_nil] at hb
      subst hb
      simp [findSub?, List.isPrefixOf]
    | cons c rest =>
      simp only [List.nil_append, findSub?]
      rw [if_pos (by rw [List.isPrefixOf_iff_prefix]; exact hb)]
      rfl
  | cons c a' ih =>
    intro b hb hnp
    have h0 : ¬ pat <+: (c :: (a' ++ b)) := by
      have := hnp 0 (by simp)
      simpa using this
    rw [List.cons_append, findSub?,
      if_neg (by rw [List.isPrefixOf_iff_prefix]; exact h0)]
    rw [ih b hb ?_]
    · rfl
    · intro i hi
      have := hnp (i + 1) (by simpa using Nat.succ_lt_succ hi)
      simpa using this

/-! ### replaceAll equations and the effective-replacement lemma -/

lemma replaceAllGo_fuel_eq (rep pat : Str) :
    ∀ f₁ f₂ s, s.length ≤ f₁ → s.length ≤ f₂ →
      replaceAllGo rep pat f₁ s = replaceAllGo rep pat f₂ s := by
  intro f₁
  induction f₁ with
  | zero =>
    intro f₂ s h1 _
    have hs : s = [] := List.eq_nil_of_length_eq_zero (Nat.le_zero.mp h1)
    subst hs
    cases pat <;> simp [replaceAllGo]
  | succ f ih =>
    intro f₂ s h1 h2
    cases pat with
    | nil => simp [replaceAllGo]
    | cons p ps =>
      cases s with
      | nil => simp [replaceAllGo]
      | cons c rest =>
        cases f₂ with
        | zero => simp at h2
        | succ f₂' =>
          simp only [replaceAllGo]
          by_cases hpre : (p :: ps).isPrefixOf (c :: rest) = true
          · rw [if_pos hpre, if_pos hpre]
            congr 1
            refine ih f₂' _ ?_ ?_ <;>
              simp only [List.length_drop, List.length_cons] <;>
              simp only [List.length_cons] at h1 h2 <;> omega
          · rw [if_neg hpre, if_neg hpre]
            congr 1
            refine ih f₂' rest ?_ ?_ <;>
              simp only [List.length_cons] at h1 h2 <;> omega

lemma replaceAll_nil_str (p : Char) (ps rep : Str) :
    replaceAll (p :: ps) rep [] = [] := by
  simp [replaceAll, replaceAllGo]

lemma replaceAll_pos_case {p : Char} {ps : Str} {c : Char} {rest : Str} (rep : Str)
    (h : (p :: ps) <+: (c :: rest)) :
    replaceAll (p :: ps) rep (c :: rest) =
      rep ++ replaceAll (p :: ps) rep ((c :: rest).drop (p :: ps).length) := by
  have hb : (p :: ps).isPrefixOf (c :: rest) = true :=
    List.isPrefixOf_iff_prefix.mpr h
  show replaceAllGo rep (p :: ps) (rest.length + 1) (c :: rest) = _
  simp only [replaceAllGo, hb, if_true]
  congr 1
  apply replaceAllGo_fuel_eq
  · simp only [List.length_drop, List.length_cons]
    omega
  · exact Nat.le_refl _

lemma replaceAll_neg_case {p : Char} {ps : Str} {c : Char} {rest : Str} (rep : Str)
    (h : ¬ (p :: ps) <+: (c :: rest)) :
    replaceAll (p :: ps) rep (c :: rest) = c :: replaceAll (p :: ps) rep rest := by
  have hb : ¬ ((p :: ps).isPrefixOf (c :: rest) = true) :=
    fun hh => h (List.isPrefixOf_iff_prefix.mp hh)
  show replaceAllGo rep (p :: ps) (rest.length + 1) (c :: rest) = _
  simp only [replaceAllGo]
  rw [if_neg hb]
  rfl

lemma replaceAll_length_le {p : Char} {ps rep : Str}
    (hle : rep.length ≤ (p :: ps).length) :
    ∀ n s, s.length ≤ n → (replaceAll (p :: ps) rep s).length ≤ s.length := by
  intro n
  induction n with
  | zero =>
    intro s h
    have hs : s = [] := List.eq_nil_of_length_eq_zero (Nat.le_zero.mp h)
    subst hs
    simp [replaceAll_nil_str]
  | succ k ih =>
    intro s h
    cases s with
    | nil => simp [replaceAll_nil_str]
    | cons c rest =>
      by_cases hpre : (p :: ps) <+: (c :: rest)
      · rw [replaceAll_pos_case rep hpre]
        have hplen : (p :: ps).length ≤ (c :: rest).length := hpre.length_le
        have hC : 1 ≤ (p :: ps).length := by simp
        have hdl : ((c :: rest).drop (p :: ps).length).length
            = (c :: rest).length - (p :: ps).length := List.length_drop _ _
        have ihh := ih ((c :: rest).drop (p :: ps).length) (by rw [hdl]; omega)
        rw [hdl] at ihh
        rw [List.length_append]
        omega
      · rw [replaceAll_neg_case rep hpre]
        have hrl : (rest.length : Nat) ≤ k := by
          simp only [List.length_cons] at h
          omega
        have ihh := ih rest hrl
        simp only [List.length_cons]
        omega

lemma replaceAll_length_ge {p : Char} {ps rep : Str}
    (hge : (p :: ps).length ≤ rep.length) :
    ∀ n s, s.length ≤ n → s.length ≤ (replaceAll (p :: ps) rep s).length := by
  intro n
  induction n with
  | zero =>
    intro s h
    have hs : s = [] := List.eq_nil_of_length_eq_zero (Nat.le_zero.mp h)
    subst hs
    simp [replaceAll_nil_str]
  | succ k ih =>
    intro s h
    cases s with
    | nil => simp [replaceAll_nil_str]
    | cons c rest =>
      by_cases hpre : (p :: ps) <+: (c :: rest)
      · rw [replaceAll_pos_case rep hpre]
        have hplen : (p :: ps).length ≤ (c :: rest).length := hpre.length_le
        have hC : 1 ≤ (p :: ps).length := by simp
        have hdl : ((c :: rest).drop (p :: ps).length).length
            = (c :: rest).length - (p :: ps).length := List.length_drop _ _
        have ihh := ih ((c :: rest).drop (p :: ps).length) (by rw [hdl]; omega)
        rw [hdl] at ihh
        rw [List.length_append]
        omega
      · rw [replaceAll_neg_case rep hpre]
        have hrl : (rest.length : Nat) ≤ k := by
          simp only [List.length_cons] at h
          omega
        have ihh := ih rest hrl
        simp only [List.length_cons]
        omega

/-- When the pattern occurs in `s` and the replacement differs from the
pattern, `String::replace` changes `s`. -/
lemma replaceAll_ne_of_occurs {pat rep s : Str}
    (hocc : occursSub pat s) (hne : rep ≠ pat) : replaceAll pat rep s ≠ s := by
  cases pat with
  | nil =>
    intro h
    rw [replaceAll_nil_pat] at h
    have h1 := congrArg List.length h
    rw [length_insert_everywhere] at h1
    have h3 : 0 < rep.length := List.length_pos.mpr hne
    have h4 : s.length * (1 + rep.length) = s.length + s.length * rep.length := by
      rw [Nat.mul_add, Nat.mul_one]
    rw [h4] at h1
    generalize s.length * rep.length = k at h1
    omega
  | cons p ps =>
    suffices h : ∀ n s, s.length ≤ n → occursSub (p :: ps) s →
        replaceAll (p :: ps) rep s ≠ s by
      exact h s.length s (Nat.le_refl _) hocc
    intro n
    induction n with
    | zero =>
      intro s hlen hocc2
      have hs : s = [] := List.eq_nil_of_length_eq_zero (Nat.le_zero.mp hlen)
      subst hs
      obtain ⟨i, hi⟩ := hocc2
      simp [List.prefix_nil] at hi
    | succ k ih =>
      intro s hlen hocc2 heq
      cases s with
      | nil =>
        obtain ⟨i, hi⟩ := hocc2
        simp [List.prefix_nil] at hi
      | cons c rest =>
        by_cases hpre : (p :: ps) <+: (c :: rest)
        · rw [replaceAll_pos_case rep hpre] at heq
          obtain ⟨u, hu⟩ := hpre
          have hdrop : (c :: rest).drop (p :: ps).length = u := by
            rw [← hu, List.drop_left]
          rw [hdrop, ← hu] at heq
          rcases Nat.lt_trichotomy rep.length (p :: ps).length with hlt | heqlen | hgt
          · have hR := replaceAll_length_le (Nat.le_of_lt hlt) u.length u (Nat.le_refl _)
            have hL := congrArg List.length heq
            simp only [List.length_append] at hL
            omega
          · have hrp : rep = p :: ps := by
              have h3 := congrArg (List.take rep.length) heq
              rw [List.take_left] at h3
              rw [heqlen, List.take_left] at h3
              exact h3
            exact hne hrp
          · have hR := replaceAll_length_ge (Nat.le_of_lt hgt) u.length u (Nat.le_refl _)
            have hL := congrArg List.length heq
            simp only [List.length_append] at hL
            omega
        · rw [replaceAll_neg_case rep hpre] at heq
          injection heq with _ htail
          have hocc3 : occursSub (p :: ps) rest := by
            obtain ⟨i, hi⟩ := hocc2
            cases i with
            | zero => rw [List.drop_zero] at hi; exact absurd hi hpre
            | succ j => exact ⟨j, by simpa using hi⟩
          refine ih rest ?_ hocc3 htail
          simp only [List.length_cons] at hlen
          omega

/-! ### rustTrim computation lemmas -/

lemma length_dropWhile_le (p : Char → Bool) (l : Str) :
    (l.dropWhile p).length ≤ l.length := by
  induction l with
  | nil => simp
  | cons c t ih =>
    rw [List.dropWhile_cons]
    split
    · exact Nat.le_trans ih (by simp)
    · simp

/-- Trimming `"\n" ++ o ++ "\n"` gives back `o` whenever `o` is already
trimmed. -/
lemma rustTrim_sandwich (o : Str) (ho : rustTrim o = o) :
    rustTrim ('\n' :: (o ++ ['\n'])) = o := by
  cases o with
  | nil =>
    simp only [List.nil_append]
    decide
  | cons c t =>
    have hc : Char.isWhitespace c = false := by
      by_contra hcc
      rw [Bool.not_eq_false] at hcc
      have h1 : rustTrim (c :: t) ≠ c :: t := by
        intro hEq
        have hlen := congrArg List.length hEq
        unfold rustTrim at hlen
        rw [List.dropWhile_cons, if_pos hcc] at hlen
        have hb1 : (t.dropWhile Char.isWhitespace).length ≤ t.length :=
          length_dropWhile_le _ _
        have hb2 := length_dropWhile_le Char.isWhitespace
          ((t.dropWhile Char.isWhitespace).reverse)
        rw [List.length_reverse] at hb2
        simp only [List.length_reverse, List.length_cons] at hlen
        omega
      exact h1 ho
    have hnotws : ¬ (Char.isWhitespace c = true) := by rw [hc]; simp
    unfold rustTrim at ho ⊢
    rw [List.dropWhile_cons, if_neg hnotws] at ho
    rw [List.dropWhile_cons, if_pos (by decide : Char.isWhitespace '\n' = true),
      List.cons_append, List.dropWhile_cons, if_neg hnotws]
    have hrev : (c :: (t ++ ['\n'])).reverse = '\n' :: (t.reverse ++ [c]) := by
      simp
    have hrev2 : (c :: t).reverse = t.reverse ++ [c] := by simp
    rw [hrev, List.dropWhile_cons,
      if_pos (by decide : Char.isWhitespace '\n' = true)]
    rw [hrev2] at ho
    exact ho

/-! ### matchTagAt and scanTags computations -/

lemma takeWhile_neq_append (z : Str) :
    ∀ p : Str, '"' ∉ p → (p ++ '"' :: z).takeWhile (· != '"') = p := by
  intro p
  induction p with
  | nil =>
    intro _
    rw [List.nil_append, List.takeWhile_cons]
    simp
  | cons c t ih =>
    intro hq
    rw [List.mem_cons, not_or] at hq
    rw [List.cons_append, List.takeWhile_cons, if_pos ?_]
    · rw [ih hq.2]
    · simp only [bne_iff_ne, ne_eq]
      exact fun h => hq.1 h.symm

/-- The body of a well-formed `<file>` block in the documented response
format: ORIGINAL fragment `o`, MODIFIED fragment `m`. -/
def blockBody (o m : Str) : Str :=
  "\n<<<<<<< ORIGINAL\n".toList ++ o ++ "\n=======\n".toList ++ m ++
  "\n>>>>>>> MODIFIED\n".toList

/-- A response holding exactly one well-formed `<file path="p">` block. -/
def mkFileResponse (p o m : Str) : Str :=
  "<file path=\"".toList ++ p ++ "\">".toList ++ blockBody o m ++ "</file>".toList

lemma isPrefixOf_append_self (l z : Str) : l.isPrefixOf (l ++ z) = true :=
  List.isPrefixOf_iff_prefix.mpr (List.prefix_append l z)

lemma matchTagAt_file_template (p rest : Str) (hp : p ≠ []) (hq : '"' ∉ p) :
    matchTagAt "file".toList
      ("<file path=\"".toList ++ (p ++ ('"' :: '>' :: rest))) =
      some (p, 14 + p.length) := by
  have e1 : "<file path=\"".toList ++ (p ++ ('"' :: '>' :: rest))
      = '<' :: 'f' :: 'i' :: 'l' :: 'e' :: ' ' :: 'p' :: 'a' :: 't' :: 'h' :: '=' :: '"'
        :: (p ++ ('"' :: '>' :: rest)) := rfl
  have f1 : (('<' :: 'f' :: 'i' :: 'l' :: 'e' :: ' ' :: 'p' :: 'a' :: 't' :: 'h' :: '=' :: '"'
      :: (p ++ ('"' :: '>' :: rest))) : Str).drop ("file".toList.length + 1)
      = ' ' :: 'p' :: 'a' :: 't' :: 'h' :: '=' :: '"' :: (p ++ ('"' :: '>' :: rest)) := rfl
  have hcond1 : (('<' :: "file".toList).isPrefixOf
      ('<' :: 'f' :: 'i' :: 'l' :: 'e' :: ' ' :: 'p' :: 'a' :: 't' :: 'h' :: '=' :: '"'
        :: (p ++ ('"' :: '>' :: rest)))) = true := by
    simp [List.isPrefixOf]
  have f2 : ((' ' :: 'p' :: 'a' :: 't' :: 'h' :: '=' :: '"' :: (p ++ ('"' :: '>' :: rest))) :
      Str).takeWhile Char.isWhitespace = [' '] := rfl
  have f4 : ((' ' :: 'p' :: 'a' :: 't' :: 'h' :: '=' :: '"' :: (p ++ ('"' :: '>' :: rest))) :
      Str).drop (([' '] : Str).length)
      = 'p' :: 'a' :: 't' :: 'h' :: '=' :: '"' :: (p ++ ('"' :: '>' :: rest)) := rfl
  have f5 : ("path=\"".toList).isPrefixOf
      (('p' :: 'a' :: 't' :: 'h' :: '=' :: '"' :: (p ++ ('"' :: '>' :: rest))) : Str) = true := by
    simp [List.isPrefixOf]
  have f6 : (('p' :: 'a' :: 't' :: 'h' :: '=' :: '"' :: (p ++ ('"' :: '>' :: rest))) : Str).drop 6
      = p ++ ('"' :: '>' :: rest) := rfl
  have f7 : (p ++ ('"' :: '>' :: rest)).takeWhile (· != '"') = p :=
    takeWhile_neq_append ('>' :: rest) p hq
  have f8 : p.isEmpty = false := by
    cases p with
    | nil => exact absurd rfl hp
    | cons a t => rfl
  have f9 : (p ++ ('"' :: '>' :: rest)).drop p.length = '"' :: '>' :: rest :=
    List.drop_left p _
  have f10 : ("\">".toList).isPrefixOf ('"' :: '>' :: rest) = true := by
    simp [List.isPrefixOf]
  have f3 : (([' '] : Str).isEmpty) = false := rfl
  have f11 : "file".toList.length = 4 := rfl
  have f12 : (([' '] : Str).length) = 1 := rfl
  rw [e1]
  unfold matchTagAt
  simp only [hcond1, if_true, f1, f2, f3, f4, f5, f6, f7, f8, f9, f10]
  simp only [Bool.false_eq_true, if_false, eq_self_iff_true, if_true,
    Option.some.injEq, Prod.mk.injEq, f11, f12]
  exact ⟨trivial, by omega⟩

lemma matchTagAt_none {tagName s : Str} (h : ¬ ('<' :: tagName) <+: s) :
    matchTagAt tagName s = none := by
  unfold matchTagAt
  rw [if_neg (fun hh => h (List.isPrefixOf_iff_prefix.mp hh))]

lemma scanTagsGo_nil {tagName : Str} :
    ∀ (fuel : Nat) (s : Str) (pos : Nat), NoPre ('<' :: tagName) s [] →
      scanTagsGo tagName fuel s pos = [] := by
  intro fuel
  induction fuel with
  | zero => intro s pos _; simp [scanTagsGo]
  | succ f ih =>
    intro s pos hnp
    cases s with
    | nil => simp [scanTagsGo]
    | cons c rest =>
      have h0 : matchTagAt tagName (c :: rest) = none := by
        apply matchTagAt_none
        have h1 := hnp 0 (by simp)
        simpa using h1
      simp only [scanTagsGo, h0]
      exact ih rest (pos + 1) (fun i hi => by
        have h2 := hnp (i + 1) (by simpa using Nat.succ_lt_succ hi)
        simpa using h2)

lemma scanTagsGo_match {tagName s cap : Str} {len : Nat}
    (h : matchTagAt tagName s = some (cap, len)) (hs : s ≠ []) (fuel pos : Nat) :
    scanTagsGo tagName (fuel + 1) s pos =
      (cap, pos + len) :: scanTagsGo tagName fuel (s.drop len) (pos + len) := by
  obtain ⟨c, rest, rfl⟩ : ∃ c rest, s = c :: rest := by
    cases s with
    | nil => exact absurd rfl hs
    | cons c rest => exact ⟨c, rest, rfl⟩
  simp only [scanTagsGo, h]

/-! ### No-occurrence facts over the single-block response -/

lemma blockBody_close_decomp (o m : Str) :
    blockBody o m ++ "</file>".toList =
      "\n<<<<<<< ORIGINAL\n".toList ++ (o ++ ("\n=======\n".toList ++
        (m ++ "\n>>>>>>> MODIFIED\n</file>".toList))) := by
  unfold blockBody
  have h1 : "\n>>>>>>> MODIFIED\n".toList ++ "</file>".toList
      = "\n>>>>>>> MODIFIED\n</file>".toList := rfl
  rw [← h1]
  simp [List.append_assoc]

lemma mkFileResponse_decomp (p o m : Str) :
    mkFileResponse p o m =
      "<file path=\"".toList ++ (p ++ ('"' :: '>' :: (blockBody o m ++ "</file>".toList))) := by
  unfold mkFileResponse
  have h1 : "\">".toList = '"' :: '>' :: ([] : Str) := rfl
  rw [h1]
  simp [List.append_assoc]

lemma mkFileResponse_decomp2 (p o m : Str) :
    mkFileResponse p o m =
      "<file path=\"".toList ++ (p ++ ("\">".toList ++ ("\n<<<<<<< ORIGINAL\n".toList ++
        (o ++ ("\n=======\n".toList ++ (m ++ "\n>>>>>>> MODIFIED\n</file>".toList)))))) := by
  unfold mkFileResponse blockBody
  have h1 : "\n>>>>>>> MODIFIED\n".toList ++ "</file>".toList
      = "\n>>>>>>> MODIFIED\n</file>".toList := rfl
  rw [← h1]
  simp [List.append_assoc]

lemma noPre_blockBody_close {hd : Char} {pr : Str} (o m : Str)
    (hdo : hd ∉ o) (hdm : hd ∉ m)
    (c3 : ∀ i < ("\n<<<<<<< ORIGINAL\n".toList : Str).length,
      ¬ (("\n<<<<<<< ORIGINAL\n".toList : Str).drop i) <+: (hd :: pr) ∧
      ¬ (hd :: pr) <+: (("\n<<<<<<< ORIGINAL\n".toList : Str).drop i))
    (c4 : ∀ i < ("\n=======\n".toList : Str).length,
      ¬ (("\n=======\n".toList : Str).drop i) <+: (hd :: pr) ∧
      ¬ (hd :: pr) <+: (("\n=======\n".toList : Str).drop i))
    (c5 : ∀ i < ("\n>>>>>>> MODIFIED\n</file>".toList : Str).length,
      ¬ (("\n>>>>>>> MODIFIED\n</file>".toList : Str).drop i) <+: (hd :: pr) ∧
      ¬ (hd :: pr) <+: (("\n>>>>>>> MODIFIED\n</file>".toList : Str).drop i)) :
    NoPre (hd :: pr) (blockBody o m ++ "</file>".toList) [] := by
  rw [blockBody_close_decomp]
  refine noPre_append (noPre_lit c3 _) ?_
  refine noPre_append (noPre_head_notMem hdo) ?_
  refine noPre_append (noPre_lit c4 _) ?_
  exact noPre_append (noPre_head_notMem hdm) (noPre_lit c5 _)

lemma noPre_mkFileResponse {hd : Char} {pr : Str} (p o m : Str)
    (hdp : hd ∉ p) (hdo : hd ∉ o) (hdm : hd ∉ m)
    (c1 : ∀ i < ("<file path=\"".toList : Str).length,
      ¬ (("<file path=\"".toList : Str).drop i) <+: (hd :: pr) ∧
      ¬ (hd :: pr) <+: (("<file path=\"".toList : Str).drop i))
    (c2 : ∀ i < ("\">".toList : Str).length,
      ¬ (("\">".toList : Str).drop i) <+: (hd :: pr) ∧
      ¬ (hd :: pr) <+: (("\">".toList : Str).drop i))
    (c3 : ∀ i < ("\n<<<<<<< ORIGINAL\n".toList : Str).length,
      ¬ (("\n<<<<<<< ORIGINAL\n".toList : Str).drop i) <+: (hd :: pr) ∧
      ¬ (hd :: pr) <+: (("\n<<<<<<< ORIGINAL\n".toList : Str).drop i))
    (c4 : ∀ i < ("\n=======\n".toList : Str).length,
      ¬ (("\n=======\n".toList : Str).drop i) <+: (hd :: pr) ∧
      ¬ (hd :: pr) <+: (("\n=======\n".toList : Str).drop i))
    (c5 : ∀ i < ("\n>>>>>>> MODIFIED\n</file>".toList : Str).length,
      ¬ (("\n>>>>>>> MODIFIED\n</file>".toList : Str).drop i) <+: (hd :: pr) ∧
      ¬ (hd :: pr) <+: (("\n>>>>>>> MODIFIED\n</file>".toList : Str).drop i)) :
    NoPre (hd :: pr) (mkFileResponse p o m) [] := by
  rw [mkFileResponse_decomp2]
  refine noPre_append (noPre_lit c1 _) ?_
  refine noPre_append (noPre_head_notMem hdp) ?_
  refine noPre_append (noPre_lit c2 _) ?_
  refine noPre_append (noPre_lit c3 _) ?_
  refine noPre_append (noPre_head_notMem hdo) ?_
  refine noPre_append (noPre_lit c4 _) ?_
  exact noPre_append (noPre_head_notMem hdm) (noPre_lit c5 _)

lemma parsePlan_mkFileResponse (p o m : Str)
    (hpl : '<' ∉ p) (ho : '<' ∉ o) (hm : '<' ∉ m) :
    parsePlan (mkFileResponse p o m) = some [] := by
  have hnone : findSub? planOpenTag (mkFileResponse p o m) = none := by
    apply findSub?_eq_none (by decide)
    have hpl2 : planOpenTag = '<' :: "plan>".toList := rfl
    rw [hpl2]
    exact noPre_mkFileResponse p o m hpl ho hm (by decide) (by decide) (by decide)
      (by decide) (by decide)
  simp only [parsePlan, hnone]

lemma scanTags_newfile_mkFileResponse (p o m : Str)
    (hpl : '<' ∉ p) (ho : '<' ∉ o) (hm : '<' ∉ m) :
    scanTags "new_file".toList (mkFileResponse p o m) = [] := by
  rw [scanTags]
  apply scanTagsGo_nil
  exact noPre_mkFileResponse p o m hpl ho hm (by decide) (by decide) (by decide)
    (by decide) (by decide)

lemma head_len_mkFileResponse (p : Str) :
    ("<file path=\"".toList ++ p ++ "\">".toList).length = 14 + p.length := by
  have h1 : ("<file path=\"".toList : Str).length = 12 := rfl
  have h2 : ("\">".toList : Str).length = 2 := rfl
  simp only [List.length_append, h1, h2]
  omega

lemma drop_tag_mkFileResponse (p o m : Str) :
    (mkFileResponse p o m).drop (14 + p.length) =
      blockBody o m ++ "</file>".toList := by
  have hsplit : mkFileResponse p o m =
      ("<file path=\"".toList ++ p ++ "\">".toList) ++
        (blockBody o m ++ "</file>".toList) := by
    unfold mkFileResponse
    simp [List.append_assoc]
  rw [hsplit, ← head_len_mkFileResponse p, List.drop_left]

lemma scanTags_file_mkFileResponse (p o m : Str) (hp : p ≠ []) (hq : '"' ∉ p)
    (ho : '<' ∉ o) (hm : '<' ∉ m) :
    scanTags "file".toList (mkFileResponse p o m) = [(p, 14 + p.length)] := by
  have hmatch : matchTagAt "file".toList (mkFileResponse p o m) =
      some (p, 14 + p.length) := by
    rw [mkFileResponse_decomp]
    exact matchTagAt_file_template p _ hp hq
  have hne : mkFileResponse p o m ≠ [] := by
    rw [mkFileResponse_decomp]
    intro h
    have h2 := congrArg List.length h
    have h3 : ("<file path=\"".toList : Str).length = 12 := rfl
    simp only [List.length_append, h3, List.length_nil] at h2
    omega
  obtain ⟨n, hn⟩ : ∃ n, (mkFileResponse p o m).length = n + 1 := by
    refine ⟨(mkFileResponse p o m).length - 1, ?_⟩
    have h4 : mkFileResponse p o m ≠ [] := hne
    have h5 : 0 < (mkFileResponse p o m).length := List.length_pos.mpr h4
    omega
  rw [scanTags, hn, scanTagsGo_match hmatch hne n 0]
  rw [Nat.zero_add, drop_tag_mkFileResponse]
  rw [scanTagsGo_nil n _ _ (noPre_blockBody_close o m ho hm (by decide) (by decide)
    (by decide))]

lemma blockBody_rnest (o m : Str) :
    blockBody o m = "\n<<<<<<< ORIGINAL\n".toList ++ (o ++ ("\n=======\n".toList ++
      (m ++ "\n>>>>>>> MODIFIED\n".toList))) := by
  unfold blockBody
  simp [List.append_assoc]

lemma blockBody_length (o m : Str) :
    (blockBody o m).length = 45 + o.length + m.length := by
  rw [blockBody_rnest]
  have h1 : ("\n<<<<<<< ORIGINAL\n".toList : Str).length = 18 := rfl
  have h2 : ("\n=======\n".toList : Str).length = 9 := rfl
  have h3 : ("\n>>>>>>> MODIFIED\n".toList : Str).length = 18 := rfl
  simp only [List.length_append, h1, h2, h3]
  omega

lemma findSub?_orig_blockBody (o m : Str) :
    findSub? origMarker (blockBody o m) = some 1 := by
  have hd : blockBody o m = ['\n'] ++ ("<<<<<<< ORIGINAL\n".toList ++
      (o ++ ("\n=======\n".toList ++ (m ++ "\n>>>>>>> MODIFIED\n".toList)))) := by
    rw [blockBody_rnest]
    rfl
  rw [hd]
  have hb : origMarker <+: ("<<<<<<< ORIGINAL\n".toList ++
      (o ++ ("\n=======\n".toList ++ (m ++ "\n>>>>>>> MODIFIED\n".toList)))) := by
    have h1 : ("<<<<<<< ORIGINAL\n".toList : Str) = origMarker ++ ['\n'] := rfl
    rw [h1, List.append_assoc]
    exact List.prefix_append _ _
  rw [findSub?_boundary _ _ hb (noPre_lit (by decide) _)]
  rfl

lemma findSub?_sep_blockBody (o m : Str) (ho : '=' ∉ o) :
    findSub? sepMarker (blockBody o m) = some (19 + o.length) := by
  have hd : blockBody o m = ("\n<<<<<<< ORIGINAL\n".toList ++ (o ++ ['\n'])) ++
      ("=======\n".toList ++ (m ++ "\n>>>>>>> MODIFIED\n".toList)) := by
    rw [blockBody_rnest, show ("\n=======\n".toList : Str)
      = ['\n'] ++ "=======\n".toList from rfl]
    simp [List.append_assoc]
  rw [hd]
  have hb : sepMarker <+: ("=======\n".toList ++
      (m ++ "\n>>>>>>> MODIFIED\n".toList)) := by
    have h1 : ("=======\n".toList : Str) = sepMarker ++ ['\n'] := rfl
    rw [h1, List.append_assoc]
    exact List.prefix_append _ _
  have hnp : NoPre sepMarker ("\n<<<<<<< ORIGINAL\n".toList ++ (o ++ ['\n']))
      ("=======\n".toList ++ (m ++ "\n>>>>>>> MODIFIED\n".toList)) := by
    refine noPre_append (noPre_lit (by decide) _) ?_
    refine noPre_append ?_ (noPre_lit (by decide) _)
    rw [show sepMarker = '=' :: "======".toList from rfl]
    exact noPre_head_notMem ho
  rw [findSub?_boundary _ _ hb hnp]
  have hlen : ("\n<<<<<<< ORIGINAL\n".toList ++ (o ++ ['\n'])).length
      = 19 + o.length := by
    have h1 : ("\n<<<<<<< ORIGINAL\n".toList : Str).length = 18 := rfl
    simp only [List.length_append, h1, List.length_cons, List.length_nil]
    omega
  rw [hlen]

lemma findSub?_mod_blockBody (o m : Str) (ho : '>' ∉ o) (hm : '>' ∉ m) :
    findSub? modMarker (blockBody o m) = some (28 + o.length + m.length) := by
  have hd : blockBody o m =
      ("\n<<<<<<< ORIGINAL\n".toList ++ (o ++ ("\n=======\n".toList ++ (m ++ ['\n'])))) ++
        ">>>>>>> MODIFIED\n".toList := by
    rw [blockBody_rnest, show ("\n>>>>>>> MODIFIED\n".toList : Str)
      = ['\n'] ++ ">>>>>>> MODIFIED\n".toList from rfl]
    simp [List.append_assoc]
  rw [hd]
  have hb : modMarker <+: (">>>>>>> MODIFIED\n".toList : Str) := by
    have h1 : (">>>>>>> MODIFIED\n".toList : Str) = modMarker ++ ['\n'] := rfl
    rw [h1]
    exact List.prefix_append _ _
  have hnp : NoPre modMarker
      ("\n<<<<<<< ORIGINAL\n".toList ++ (o ++ ("\n=======\n".toList ++ (m ++ ['\n']))))
      (">>>>>>> MODIFIED\n".toList) := by
    refine noPre_append (noPre_lit (by decide) _) ?_
    refine noPre_append ?_ ?_
    · rw [show modMarker = '>' :: ">>>>>> MODIFIED".toList from rfl]
      exact noPre_head_notMem ho
    refine noPre_append (noPre_lit (by decide) _) ?_
    refine noPre_append ?_ (noPre_lit (by decide) _)
    rw [show modMarker = '>' :: ">>>>>> MODIFIED".toList from rfl]
    exact noPre_head_notMem hm
  rw [findSub?_boundary _ _ hb hnp]
  have hlen : ("\n<<<<<<< ORIGINAL\n".toList ++
      (o ++ ("\n=======\n".toList ++ (m ++ ['\n'])))).length
      = 28 + o.length + m.length := by
    have h1 : ("\n<<<<<<< ORIGINAL\n".toList : Str).length = 18 := rfl
    have h2 : ("\n=======\n".toList : Str).length = 9 := rfl
    simp only [List.length_append, h1, h2, List.length_cons, List.length_nil]
    omega
  rw [hlen]

lemma findSub?_close_blockBody (o m : Str) (ho : '<' ∉ o) (hm : '<' ∉ m) :
    findSub? fileCloseTag (blockBody o m ++ "</file>".toList)
      = some (blockBody o m).length := by
  have hb : fileCloseTag <+: ("</file>".toList : Str) := List.prefix_refl _
  have hnp : NoPre fileCloseTag (blockBody o m) ("</file>".toList) := by
    rw [blockBody_rnest]
    refine noPre_append (noPre_lit (by decide) _) ?_
    refine noPre_append ?_ ?_
    · rw [show fileCloseTag = '<' :: "/file>".toList from rfl]
      exact noPre_head_notMem ho
    refine noPre_append (noPre_lit (by decide) _) ?_
    refine noPre_append ?_ (noPre_lit (by decide) _)
    rw [show fileCloseTag = '<' :: "/file>".toList from rfl]
    exact noPre_head_notMem hm
  have h := findSub?_boundary (blockBody o m) ("</file>".toList) hb hnp
  exact h

lemma rsSlice_orig_blockBody (o m : Str) :
    rsSlice (blockBody o m) 17 (19 + o.length) = some ('\n' :: (o ++ ['\n'])) := by
  have hcond : 17 ≤ 19 + o.length ∧ 19 + o.length ≤ (blockBody o m).length := by
    constructor
    · omega
    · rw [blockBody_length]; omega
  unfold rsSlice
  rw [if_pos hcond]
  have hdrop : (blockBody o m).drop 17 =
      '\n' :: (o ++ ("\n=======\n".toList ++ (m ++ "\n>>>>>>> MODIFIED\n".toList))) := by
    rw [blockBody_rnest,
      List.drop_append_of_le_length (by decide :
        (17 : Nat) ≤ ("\n<<<<<<< ORIGINAL\n".toList : Str).length)]
    rfl
  rw [hdrop]
  have harith : 19 + o.length - 17 = (o.length + 1) + 1 := by omega
  rw [harith, List.take_succ_cons]
  have htake : (o ++ ("\n=======\n".toList ++
      (m ++ "\n>>>>>>> MODIFIED\n".toList))).take (o.length + 1)
      = o ++ ['\n'] := by
    rw [List.take_append]
    have h1 : ("\n=======\n".toList ++
        (m ++ "\n>>>>>>> MODIFIED\n".toList)).take 1 = ['\n'] := by
      rw [List.take_append_of_le_length (by decide :
        (1 : Nat) ≤ ("\n=======\n".toList : Str).length)]
      rfl
    rw [h1]
  rw [htake]

lemma rsSlice_mod_blockBody (o m : Str) :
    rsSlice (blockBody o m) (26 + o.length) (28 + o.length + m.length)
      = some ('\n' :: (m ++ ['\n'])) := by
  have hcond : 26 + o.length ≤ 28 + o.length + m.length ∧
      28 + o.length + m.length ≤ (blockBody o m).length := by
    constructor
    · omega
    · rw [blockBody_length]; omega
  unfold rsSlice
  rw [if_pos hcond]
  have hsplit : blockBody o m =
      ("\n<<<<<<< ORIGINAL\n".toList ++ (o ++ "\n=======".toList)) ++
        ('\n' :: (m ++ "\n>>>>>>> MODIFIED\n".toList)) := by
    rw [blockBody_rnest, show ("\n=======\n".toList : Str)
      = "\n=======".toList ++ ['\n'] from rfl]
    simp [List.append_assoc]
  have hlenA : ("\n<<<<<<< ORIGINAL\n".toList ++ (o ++ "\n=======".toList)).length
      = 26 + o.length := by
    have h1 : ("\n<<<<<<< ORIGINAL\n".toList : Str).length = 18 := rfl
    have h2 : ("\n=======".toList : Str).length = 8 := rfl
    simp only [List.length_append, h1, h2]
    omega
  have hdrop : (blockBody o m).drop (26 + o.length) =
      '\n' :: (m ++ "\n>>>>>>> MODIFIED\n".toList) := by
    rw [hsplit, ← hlenA, List.drop_left]
  rw [hdrop]
  have harith : 28 + o.length + m.length - (26 + o.length) = (m.length + 1) + 1 := by
    omega
  rw [harith, List.take_succ_cons]
  have htake : (m ++ "\n>>>>>>> MODIFIED\n".toList).take (m.length + 1)
      = m ++ ['\n'] := by
    rw [List.take_append]
    have h1 : ("\n>>>>>>> MODIFIED\n".toList : Str).take 1 = ['\n'] := rfl
    rw [h1]
  rw [htake]

lemma processFileBlock_mkFile (env : Str → Option Str) (jb : Str → Str)
    (p o m : Str) (ho2 : '=' ∉ o) (ho3 : '>' ∉ o) (hm3 : '>' ∉ m)
    (hto : rustTrim o = o) (htm : rustTrim m = m)
    (hocc : occursSub o ((env (jb p)).getD [])) (hne : m ≠ o) :
    processFileBlock env jb p (blockBody o m) =
      some (some ⟨jb p, (env (jb p)).getD [],
        replaceAll o m ((env (jb p)).getD []), []⟩) := by
  have h1 := findSub?_orig_blockBody o m
  have h2 := findSub?_sep_blockBody o m ho2
  have h3 := findSub?_mod_blockBody o m ho3 hm3
  have h4 : rsSlice (blockBody o m) (1 + 16) (19 + o.length)
      = some ('\n' :: (o ++ ['\n'])) := by
    rw [show (1 + 16 : Nat) = 17 from rfl]
    exact rsSlice_orig_blockBody o m
  have h5 : rsSlice (blockBody o m) (19 + o.length + 7) (28 + o.length + m.length)
      = some ('\n' :: (m ++ ['\n'])) := by
    rw [show 19 + o.length + 7 = 26 + o.length by omega]
    exact rsSlice_mod_blockBody o m
  have h6 : rustTrim ('\n' :: (o ++ ['\n'])) = o := rustTrim_sandwich o hto
  have h7 : rustTrim ('\n' :: (m ++ ['\n'])) = m := rustTrim_sandwich m htm
  have h8 : replaceAll o m ((env (jb p)).getD []) ≠ (env (jb p)).getD [] :=
    replaceAll_ne_of_occurs hocc hne
  simp only [processFileBlock, h1, h2, h3, h4, h5, h6, h7]
  rw [if_pos h8]

lemma collectMods_mkFile (env : Str → Option Str) (jb : Str → Str) (p o m : Str)
    (ho1 : '<' ∉ o) (ho2 : '=' ∉ o) (ho3 : '>' ∉ o)
    (hm1 : '<' ∉ m) (hm3 : '>' ∉ m)
    (hto : rustTrim o = o) (htm : rustTrim m = m)
    (hocc : occursSub o ((env (jb p)).getD [])) (hne : m ≠ o) :
    collectMods env jb (mkFileResponse p o m) [(p, 14 + p.length)] =
      some [⟨jb p, (env (jb p)).getD [],
        replaceAll o m ((env (jb p)).getD []), []⟩] := by
  have hfind : findSub? fileCloseTag ((mkFileResponse p o m).drop (14 + p.length))
      = some (blockBody o m).length := by
    rw [drop_tag_mkFileResponse]
    exact findSub?_close_blockBody o m ho1 hm1
  have htake : ((mkFileResponse p o m).drop (14 + p.length)).take (blockBody o m).length
      = blockBody o m := by
    rw [drop_tag_mkFileResponse, List.take_left]
  have hblock := processFileBlock_mkFile env jb p o m ho2 ho3 hm3 hto htm hocc hne
  simp only [collectMods, hfind, htake, hblock, Option.map_some']

/-- Claim C2: a response holding one well-formed `<file>` block whose
trimmed ORIGINAL fragment occurs in the target's current on-disk content
(a missing file reads as empty content via `getD []`) and whose trimmed
MODIFIED fragment differs yields exactly one FileChange, whose modified
text is the current content with every occurrence of ORIGINAL replaced by
MODIFIED (global substring replacement); concretely, scenario B yields the
single FileChange with modified text `fn main() \x7b println!(); \x7d`. -/
theorem c2_single_block_global_replacement :
    (∀ (env : Str → Option Str) (jb : Str → Str) (p o m : Str),
      p ≠ [] → '"' ∉ p → '<' ∉ p →
      '<' ∉ o → '=' ∉ o → '>' ∉ o → '<' ∉ m → '>' ∉ m →
      rustTrim o = o → rustTrim m = m →
      occursSub o ((env (jb p)).getD []) → m ≠ o →
      parse_ai_response env jb (mkFileResponse p o m) =
        some ⟨[], [⟨jb p, (env (jb p)).getD [],
          replaceAll o m ((env (jb p)).getD []), []⟩], [], []⟩) ∧
    parse_ai_response envB id respB = some csB := by
  constructor
  · intro env jb p o m hp hq hpl ho1 ho2 ho3 hm1 hm3 hto htm hocc hne
    have h1 := parsePlan_mkFileResponse p o m hpl ho1 hm1
    have h2 := scanTags_file_mkFileResponse p o m hp hq ho1 hm1
    have h3 := collectMods_mkFile env jb p o m ho1 ho2 ho3 hm1 hm3 hto htm hocc hne
    have h4 := scanTags_newfile_mkFileResponse p o m hpl ho1 hm1
    simp only [parse_ai_response, h1, h2, h3, h4, collectNewFiles]
  · decide

def pB : Str := "a.rs".toList

def oB : Str := "fn main() ".toList ++ ['{', '}']

def mB : Str := "fn main() ".toList ++ ['{'] ++ " println!(); ".toList ++ ['}']

theorem c2_single_block_global_replacement_witness :
    parse_ai_response envB id (mkFileResponse pB oB mB) =
      some ⟨[], [⟨id pB, (envB (id pB)).getD [],
        replaceAll oB mB ((envB (id pB)).getD []), []⟩], [], []⟩ :=
  c2_single_block_global_replacement.1 envB id pB oB mB (by decide) (by decide)
    (by decide) (by decide) (by decide) (by decide) (by decide) (by decide)
    (by decide) (by decide) ⟨0, by decide⟩ (by decide)
